import Mathlib

/-!
Verification development for the bulk 8-digit dictionary generator
(`linux/guides-tips/network/boredom/crunch_v6.py`).

The program writes records for v = 0 .. TOTAL_ENTRIES-1 into a preallocated
temporary file via mmap, each record being the decimal string of v rendered
by NumPy (`batch.astype('U8')`, which truncates to the first 8 characters,
then `np.char.zfill(_, 8)`, then an appended newline), encoded as ASCII.
Work is split into chunks of CHUNK_SIZE, generated by pool workers and
written back by the single coordinator in `imap` (submission) order.

File bytes are modelled as `List Nat` (byte values); machine integers are
`Nat` with explicit `% 2^32` where the source uses `np.uint32`.
-/

namespace Crunch

/-- ENTRY_LENGTH = 9 in the source: 8 digits + newline. -/
def ENTRY_LENGTH : Nat := 9

/-- Modulus of `np.uint32`, the dtype of `np.arange(start, end, dtype=np.uint32)`. -/
def UINT32 : Nat := 4294967296

/-- Decimal digit bytes of `n` (most significant first), fuel-driven so the
definition is structural and kernel-reducible; `toDecimalAux n n` is total
for every `n` because `n` bounds the number of division steps. Empty for 0. -/
def toDecimalAux : Nat → Nat → List Nat
  | 0, _ => []
  | fuel + 1, n => if n = 0 then [] else toDecimalAux fuel (n / 10) ++ [48 + n % 10]

/-- The ASCII bytes of Python `str(n)` for a natural number `n`. -/
def strOfNat (n : Nat) : List Nat := if n = 0 then [48] else toDecimalAux n n

/-- `numpy.char.zfill(s, w)`: pad with leading `'0'` (byte 48) to width `w`;
strings already at least `w` long are returned unchanged. -/
def zfill (w : Nat) (s : List Nat) : List Nat := List.replicate (w - s.length) 48 ++ s

/-- One output record for the array element `v`, as produced by
`np.char.zfill(batch.astype('U8'), 8) + '\n'` then ASCII encoding:
the decimal string of `v` truncated to its first 8 characters (the `'U8'`
dtype truncates), zero-filled to width 8, followed by the newline byte 10. -/
def encodeRecord (v : Nat) : List Nat := zfill 8 ((strOfNat v).take 8) ++ [10]

/-- Decode a run of ASCII digit bytes back to the number they denote. -/
def decodeDigits (s : List Nat) : Nat := s.foldl (fun a b => 10 * a + (b - 48)) 0

theorem toDecimalAux_length_le {fuel n k : Nat} (hf : n ≤ fuel) (hn : n < 10 ^ k) :
    (toDecimalAux fuel n).length ≤ k := by
  induction fuel generalizing n k with
  | zero => simp [toDecimalAux]
  | succ fuel ih =>
    by_cases h0 : n = 0
    · simp [toDecimalAux, h0]
    · have hk : k ≠ 0 := by
        rintro rfl
        simp at hn
        omega
      obtain ⟨k, rfl⟩ := Nat.exists_eq_succ_of_ne_zero hk
      have hdiv : n / 10 ≤ fuel := by
        have := Nat.div_lt_self (Nat.pos_of_ne_zero h0) (by norm_num : 1 < 10)
        omega
      have hlt : n / 10 < 10 ^ k := by
        rw [Nat.div_lt_iff_lt_mul (by norm_num : 0 < 10)]
        calc n < 10 ^ (k + 1) := hn
          _ = 10 ^ k * 10 := by ring
      have := ih hdiv hlt
      simp only [toDecimalAux, h0, if_false, List.length_append, List.length_cons,
        List.length_nil]
      omega

theorem strOfNat_length_le {n k : Nat} (hk : 0 < k) (hn : n < 10 ^ k) :
    (strOfNat n).length ≤ k := by
  unfold strOfNat
  split
  · simpa
  · exact toDecimalAux_length_le (Nat.le_refl n) hn

theorem toDecimalAux_foldl {fuel n : Nat} (hf : n ≤ fuel) (a : Nat) :
    (toDecimalAux fuel n).foldl (fun a b => 10 * a + (b - 48)) a =
      a * 10 ^ (toDecimalAux fuel n).length + n := by
  induction fuel generalizing n a with
  | zero =>
    have : n = 0 := by omega
    simp [toDecimalAux, this]
  | succ fuel ih =>
    by_cases h0 : n = 0
    · simp [toDecimalAux, h0]
    · have hdiv : n / 10 ≤ fuel := by
        have := Nat.div_lt_self (Nat.pos_of_ne_zero h0) (by norm_num : 1 < 10)
        omega
      simp only [toDecimalAux, h0, if_false, List.foldl_append, List.foldl_cons,
        List.foldl_nil, List.length_append, List.length_cons, List.length_nil]
      rw [ih hdiv]
      have hmod : 48 + n % 10 - 48 = n % 10 := by omega
      rw [hmod, pow_succ]
      have := Nat.div_add_mod n 10
      ring_nf
      omega

/-- Round trip: decoding the decimal string of `n` gives back `n`. -/
theorem decodeDigits_strOfNat (n : Nat) : decodeDigits (strOfNat n) = n := by
  unfold strOfNat decodeDigits
  split
  · simp_all
  · rw [toDecimalAux_foldl (Nat.le_refl n)]
    ring

/-- Leading zero bytes do not change the decoded value. -/
theorem decodeDigits_replicate_zero (k : Nat) (s : List Nat) :
    decodeDigits (List.replicate k 48 ++ s) = decodeDigits s := by
  unfold decodeDigits
  rw [List.foldl_append]
  congr 1
  induction k with
  | zero => simp
  | succ k ih => simpa using ih

/-- Every record is exactly 9 bytes, for every value `v` (truncation by the
`'U8'` dtype caps the digit string at 8 characters, `zfill` pads it back). -/
theorem encodeRecord_length (v : Nat) : (encodeRecord v).length = 9 := by
  simp only [encodeRecord, zfill, List.length_append, List.length_replicate,
    List.length_cons, List.length_nil, List.length_take]
  omega

theorem strOfNat_take_of_lt {v : Nat} (hv : v < 100000000) :
    (strOfNat v).take 8 = strOfNat v :=
  List.take_of_length_le (strOfNat_length_le (by norm_num) (by norm_num; omega))

/-- For values below 10^8 a record is the honest zero-padded 8-digit decimal
string plus a newline: no truncation occurs. -/
theorem encodeRecord_of_lt {v : Nat} (hv : v < 100000000) :
    encodeRecord v = zfill 8 (strOfNat v) ++ [10] := by
  rw [encodeRecord, strOfNat_take_of_lt hv]

/-- When the decimal string has more than 8 digits, the record silently keeps
only its first 8 characters. -/
theorem encodeRecord_truncates {v : Nat} (hv : 8 < (strOfNat v).length) :
    encodeRecord v = (strOfNat v).take 8 ++ [10] := by
  have hlen : ((strOfNat v).take 8).length = 8 := by
    simp only [List.length_take]
    omega
  rw [encodeRecord, zfill, hlen]
  simp

/-- Decoding the first 8 bytes of an untruncated record recovers the value. -/
theorem decode_encodeRecord {v : Nat} (hv : v < 100000000) :
    decodeDigits ((encodeRecord v).take 8) = v := by
  rw [encodeRecord_of_lt hv]
  have hlen : (zfill 8 (strOfNat v)).length = 8 := by
    simp only [zfill, List.length_append, List.length_replicate]
    have := strOfNat_length_le (n := v) (k := 8) (by norm_num) (by norm_num; omega)
    omega
  rw [List.take_append_of_le_length (by omega), List.take_of_length_le (by omega)]
  rw [zfill, decodeDigits_replicate_zero, decodeDigits_strOfNat]

/-! ## ChunkGenerator: `generate_chunk(args)` -/

/-- The inner batch loop of `generate_chunk`.  `bs` is `batch_size`, `flag k`
is the value the shared `shutdown_flag` shows at the worker's `k`-th read
(read 0 is the check before the loop, read `k ≥ 1` the check at the top of
loop iteration `k-1`), `nums` the remaining slice of the `np.arange` array and
`acc` the bytes accumulated in `result`.  Returns the number of batches
actually formatted together with the result (`none` models Python `None`).
The fuel argument makes the recursion structural; it is initialised to the
array length, which bounds the iteration count since each step drops
`bs ≥ 1` elements.  A fuel-exhaustion step cannot be reached from
`generate_chunk` (see `batchLoop_complete`). -/
def batchLoop (bs : Nat) (flag : Nat → Bool) :
    Nat → Nat → List Nat → List Nat → Nat × Option (List Nat)
  | _, _, [], acc => (0, some acc)
  | 0, _, _ :: _, _ => (0, none)
  | fuel + 1, k, x :: xs, acc =>
    if flag k then (0, none)
    else
      let res := batchLoop bs flag fuel (k + 1) ((x :: xs).drop bs)
        (acc ++ ((x :: xs).take bs).flatMap encodeRecord)
      (res.1 + 1, res.2)

/-- `generate_chunk((start, end, shutdown_flag))` with per-read flag oracle,
instrumented with the count of inner batches completed.
- the flag is read once before any work (`flag 0`);
- `numbers = np.arange(start, end, dtype=np.uint32)` (values mod 2^32; empty
  when `end ≤ start`);
- `batch_size = min(100_000, end - start)`; when `end = start` this is 0 and
  Python's `range(0, 0, 0)` raises ValueError, caught by the broad handler
  and returned as `None`;
- when `end < start` the (negative) step makes the loop body unreachable and
  the empty buffer is returned. -/
def generate_chunk_impl (flag : Nat → Bool) (start end_ : Nat) :
    Nat × Option (List Nat) :=
  if flag 0 then (0, none)
  else if end_ = start then (0, none)
  else
    batchLoop (min 100000 (end_ - start)) flag (end_ - start) 1
      ((List.range' start (end_ - start)).map (· % UINT32)) []

/-- The value `generate_chunk` returns: the byte buffer, or `None`. -/
def generate_chunk (flag : Nat → Bool) (start end_ : Nat) : Option (List Nat) :=
  (generate_chunk_impl flag start end_).2

/-- The number of inner batches the call completed (ghost instrumentation). -/
def generate_chunk_batches (flag : Nat → Bool) (start end_ : Nat) : Nat :=
  (generate_chunk_impl flag start end_).1

/-- The full byte buffer for the range `[start, end)`: each `uint32` array
element encoded in order. -/
def fullEnc (start end_ : Nat) : List Nat :=
  ((List.range' start (end_ - start)).map (· % UINT32)).flatMap encodeRecord

theorem batchLoop_some {bs : Nat} {flag : Nat → Bool} :
    ∀ {fuel k : Nat} {nums acc r : List Nat},
      (batchLoop bs flag fuel k nums acc).2 = some r →
      r = acc ++ nums.flatMap encodeRecord := by
  intro fuel
  induction fuel with
  | zero =>
    intro k nums acc r h
    match nums with
    | [] => simp [batchLoop] at h; simp [h]
    | x :: xs => simp [batchLoop] at h
  | succ fuel ih =>
    intro k nums acc r h
    match nums with
    | [] => simp [batchLoop] at h; simp [h]
    | x :: xs =>
      rw [batchLoop] at h
      by_cases hf : flag k
      · simp [hf] at h
      · simp only [hf, if_false] at h
        have := ih h
        rw [this, List.append_assoc, ← List.flatMap_append, List.take_append_drop]

theorem batchLoop_complete {bs : Nat} {flag : Nat → Bool} (hbs : 0 < bs) :
    ∀ {fuel : Nat} {nums : List Nat} {k : Nat} (acc : List Nat),
      nums.length ≤ fuel → (∀ j, k ≤ j → flag j = false) →
      (batchLoop bs flag fuel k nums acc).2 =
        some (acc ++ nums.flatMap encodeRecord) := by
  intro fuel
  induction fuel with
  | zero =>
    intro nums k acc hlen hflag
    match nums with
    | [] => simp [batchLoop]
    | x :: xs => simp at hlen
  | succ fuel ih =>
    intro nums k acc hlen hflag
    match nums with
    | [] => simp [batchLoop]
    | x :: xs =>
      rw [batchLoop]
      have hdrop : ((x :: xs).drop bs).length ≤ fuel := by
        simp only [List.length_drop, List.length_cons] at *
        omega
      have hrec := ih (acc ++ ((x :: xs).take bs).flatMap encodeRecord) hdrop
        (fun j hj => hflag j (Nat.le_of_succ_le hj))
      rw [List.append_assoc, ← List.flatMap_append, List.take_append_drop] at hrec
      simp [hflag k (Nat.le_refl k), hrec]

/-- Whatever the flag does, a buffer actually returned by `generate_chunk`
is the full encoding of the chunk's range. -/
theorem generate_chunk_some {flag : Nat → Bool} {s e : Nat} {b : List Nat}
    (h : generate_chunk flag s e = some b) : b = fullEnc s e := by
  unfold generate_chunk generate_chunk_impl at h
  by_cases h0 : flag 0
  · simp [h0] at h
  · by_cases hse : e = s
    · simp [h0, hse] at h
    · simp only [h0, hse, if_false, Bool.false_eq_true] at h
      have := batchLoop_some h
      simpa [fullEnc] using this

/-- A never-cancelled call returns the full buffer. -/
theorem generate_chunk_constFalse (s e : Nat) (hse : s < e) :
    generate_chunk (fun _ => false) s e = some (fullEnc s e) := by
  unfold generate_chunk generate_chunk_impl
  have hne : e ≠ s := by omega
  simp only [hne, if_false, Bool.false_eq_true]
  have := @batchLoop_complete (min 100000 (e - s)) (fun _ => false)
    (by omega) (e - s)
    ((List.range' s (e - s)).map (· % UINT32)) 1 []
    (by simp) (fun j hj => rfl)
  simpa [fullEnc] using this

/-- The length of a list of records, all of length 9. -/
theorem flatMap_length_const {α : Type} (l : List α) (f : α → List Nat)
    (hf : ∀ a ∈ l, (f a).length = 9) : (l.flatMap f).length = 9 * l.length := by
  induction l with
  | nil => simp
  | cons a l ih =>
    rw [List.flatMap_cons, List.length_append, hf a (List.mem_cons_self a l),
      ih (fun x hx => hf x (List.mem_cons_of_mem a hx))]
    simp
    ring

/-- Extracting the `j`-th 9-byte slice of a concatenation of 9-byte records
gives the `j`-th record. -/
theorem flatMap_slice {α : Type} (l : List α) (f : α → List Nat)
    (hf : ∀ a ∈ l, (f a).length = 9) :
    ∀ (j : Nat) (h : j < l.length),
      ((l.flatMap f).drop (j * 9)).take 9 = f (l.get ⟨j, h⟩) := by
  induction l with
  | nil => intro j h; simp at h
  | cons a l ih =>
    intro j h
    match j with
    | 0 =>
      have h9 := hf a (List.mem_cons_self a l)
      rw [List.flatMap_cons]
      simp only [Nat.zero_mul, List.drop_zero, List.get]
      rw [List.take_append_of_le_length (by omega), List.take_of_length_le (by omega)]
    | j + 1 =>
      have h9 := hf a (List.mem_cons_self a l)
      rw [List.flatMap_cons]
      have : (j + 1) * 9 = (f a).length + j * 9 := by omega
      rw [this, List.drop_append]
      exact ih (fun x hx => hf x (List.mem_cons_of_mem a hx)) j (by simpa using h)

/-- The buffer of chunk `[s, e)` has exactly `(e - s) * 9` bytes. -/
theorem fullEnc_length (s e : Nat) : (fullEnc s e).length = (e - s) * 9 := by
  rw [fullEnc, flatMap_length_const _ _ (fun a _ => encodeRecord_length a)]
  simp
  ring

/-- The `j`-th record of a chunk buffer is the record of `(s + j) mod 2^32`. -/
theorem fullEnc_record (s e j : Nat) (hj : j < e - s) :
    ((fullEnc s e).drop (j * 9)).take 9 = encodeRecord ((s + j) % UINT32) := by
  rw [fullEnc]
  have hlen : j < ((List.range' s (e - s)).map (· % UINT32)).length := by simpa
  rw [flatMap_slice _ _ (fun a _ => encodeRecord_length a) j hlen]
  congr 1
  rw [List.get_eq_getElem, List.getElem_map, List.getElem_range'_1]

/-- Cancellation observed at read `K`: the worker returns `None` after
completing exactly `K - 1` batches. -/
theorem batchLoop_cancelled {bs : Nat} {flag : Nat → Bool} (hbs : 0 < bs) :
    ∀ {fuel k K : Nat} {nums acc : List Nat},
      k ≤ K → flag K = true → (∀ j, k ≤ j → j < K → flag j = false) →
      nums.length ≤ fuel → (K - k) * bs < nums.length →
      batchLoop bs flag fuel k nums acc = (K - k, none) := by
  intro fuel
  induction fuel with
  | zero =>
    intro k K nums acc hkK hK hlow hlen hobs
    omega
  | succ fuel ih =>
    intro k K nums acc hkK hK hlow hlen hobs
    match nums with
    | [] => simp at hobs
    | x :: xs =>
      rw [batchLoop]
      rcases Nat.eq_or_lt_of_le hkK with rfl | hlt
      · simp [hK]
      · rw [hlow k (Nat.le_refl k) hlt]
        simp only [if_false, Bool.false_eq_true]
        have hdroplen : ((x :: xs).drop bs).length ≤ fuel := by
          simp only [List.length_drop, List.length_cons] at *
          omega
        have hobs' : (K - (k + 1)) * bs < ((x :: xs).drop bs).length := by
          simp only [List.length_drop] at *
          have : (K - k) * bs = (K - (k + 1)) * bs + bs := by
            have : K - k = (K - (k + 1)) + 1 := by omega
            rw [this]
            ring
          omega
        rw [ih (by omega) hK (fun j hj1 hj2 => hlow j (by omega) hj2) hdroplen hobs']
        have : K - k = (K - (k + 1)) + 1 := by omega
        simp [this]

/-- If the shared flag first reads true at read index `K`, and that read is
reached before the array is exhausted, the worker returns `None` having
completed exactly `K - 1` inner batches. -/
theorem generate_chunk_cancelled {flag : Nat → Bool} {s e K : Nat} (hse : s < e)
    (hK : flag K = true) (hlow : ∀ j, j < K → flag j = false)
    (hobs : (K - 1) * min 100000 (e - s) < e - s) :
    generate_chunk_impl flag s e = (K - 1, none) := by
  unfold generate_chunk_impl
  match K with
  | 0 => simp [hK]
  | K + 1 =>
    rw [hlow 0 (Nat.succ_pos K)]
    have hne : e ≠ s := by omega
    simp only [hne, if_false, Bool.false_eq_true]
    have hlen : ((List.range' s (e - s)).map (· % UINT32)).length ≤ e - s := by simp
    have hobs' : (K + 1 - 1) * min 100000 (e - s) <
        ((List.range' s (e - s)).map (· % UINT32)).length := by
      simpa using hobs
    rw [batchLoop_cancelled (by omega) (Nat.succ_le_succ (Nat.zero_le K)) hK
      (fun j hj1 hj2 => hlow j (by omega)) hlen (by simpa using hobs')]

/-! ## WorkPartitioner: the `chunks` list

The source builds
`chunks = [(i, min(i + CHUNK_SIZE, TOTAL_ENTRIES), shutdown_flag) for i in range(0, TOTAL_ENTRIES, CHUNK_SIZE)]`;
`range(0, N, C)` enumerates the starts `0, C, 2C, …`, i.e. `i*C` for
`i < ceil(N/C)`.  The shared flag argument is factored out into the
environment oracle. -/

/-- Number of chunks: `ceil(N / C)` (the length of Python `range(0, N, C)`). -/
def numChunks (N C : Nat) : Nat := (N + C - 1) / C

/-- The `i`-th chunk `(i*C, min(i*C + C, N))`. -/
def chunkOf (C N i : Nat) : Nat × Nat := (i * C, min (i * C + C) N)

/-- The materialised chunk list. -/
def chunkList (N C : Nat) : List (Nat × Nat) :=
  (List.range (numChunks N C)).map (chunkOf C N)

theorem start_lt_of_lt_numChunks {N C i : Nat} (hC : 0 < C)
    (hi : i < numChunks N C) : i * C < N := by
  unfold numChunks at hi
  have h1 : (i + 1) * C ≤ ((N + C - 1) / C) * C := Nat.mul_le_mul_right C hi
  have h2 : ((N + C - 1) / C) * C ≤ N + C - 1 := Nat.div_mul_le_self _ _
  have h3 : i * C + C ≤ N + C - 1 := by
    rw [Nat.succ_mul] at h1
    exact le_trans h1 h2
  generalize i * C = p at h3 ⊢
  omega

theorem le_numChunks_mul {N C : Nat} (hC : 0 < C) : N ≤ numChunks N C * C := by
  unfold numChunks
  have hdm := Nat.div_add_mod (N + C - 1) C
  have hmod : (N + C - 1) % C < C := Nat.mod_lt _ hC
  rw [Nat.mul_comm]
  generalize C * ((N + C - 1) / C) = p at hdm ⊢
  omega

theorem div_lt_numChunks {N C v : Nat} (hC : 0 < C) (hv : v < N) :
    v / C < numChunks N C := by
  by_contra h
  push_neg at h
  have h1 : numChunks N C * C ≤ (v / C) * C := Nat.mul_le_mul_right C h
  have h2 : (v / C) * C ≤ v := Nat.div_mul_le_self v C
  have h3 := le_numChunks_mul (N := N) (C := C) hC
  exact absurd (lt_of_le_of_lt (le_trans h3 (le_trans h1 h2)) hv) (lt_irrefl N)

theorem chunkList_length (N C : Nat) : (chunkList N C).length = numChunks N C := by
  simp [chunkList]

theorem chunkList_get (N C i : Nat) (h : i < (chunkList N C).length) :
    (chunkList N C).get ⟨i, h⟩ = (i * C, min (i * C + C) N) := by
  simp [chunkList, chunkOf]

/-! ## Coordinator: `generate_full_8digit_combinations` and `cleanup_resources`

The run is modelled as a function of an environment oracle: the free disk
space `shutil.disk_usage` reports, the value of `controller.shutdown_event`
at each loop iteration, and the values each worker's `shutdown_flag` reads
observe.  `pool.imap` delivers results in submission order, so the `i`-th
consumed result is `generate_chunk(chunks[i])`.  The filesystem is reduced
to the two paths the job touches (`…​.tmp` and the output file) plus ghost
counters recording how often the temp file was created / unlinked /
renamed. -/

/-- Oracle for everything outside the program's control. -/
structure Env where
  diskFree : Nat
  event : Nat → Bool
  flag : Nat → Nat → Bool

/-- The filesystem as the job can observe it, with ghost counters. -/
structure FsState where
  tempExists : Bool
  tempContent : List Nat
  outputExists : Bool
  outputContent : List Nat
  tempCreated : Bool
  tempDeletes : Nat
  tempRenames : Nat
deriving DecidableEq

/-- Which terminal control path `generate_full_8digit_combinations` took:
normal return, the `IOError` from `check_disk_space` (carrying required and
available bytes), the `ValueError` from `mmap` on an empty file or from
`range(0, N, 0)`, the `RuntimeError("Chunk generation failed")`, or the
`KeyboardInterrupt` raised on a set shutdown event. -/
inductive ExcPath where
  | success
  | ioError (required available : Nat)
  | valueError
  | runtimeError (msg : List Nat)
  | keyboardInterrupt
deriving DecidableEq

/-- The bytes of the fixed message of the `RuntimeError` raised when a chunk
result is `None`: `"Chunk generation failed"`.  It names no chunk index. -/
def chunkFailMsg : List Nat := (String.toList "Chunk generation failed").map Char.toNat

/-- `check_disk_space(path, required_bytes)`: raises `IOError` carrying the
required and available amounts when `stat.free < required_bytes`. -/
def check_disk_space (free required : Nat) : Except (Nat × Nat) Unit :=
  if free < required then Except.error (required, free) else Except.ok ()

/-- `mm[pos : pos + len(buf)] = buf`: splice `buf` into the mapped file at
byte offset `pos`. -/
def writeChunk (file : List Nat) (pos : Nat) (buf : List Nat) : List Nat :=
  file.take pos ++ buf ++ file.drop (pos + buf.length)

/-- The coordinator loop
`for i, result in enumerate(controller.pool.imap(generate_chunk, chunks))`.
Per iteration: check the shutdown event (raise `KeyboardInterrupt`), check
for a `None` result (raise `RuntimeError`), else write the buffer at
`start_pos = i * CHUNK_SIZE * ENTRY_LENGTH`.  Returns the control path, the
final mapped content and the ghost trace of `(offset, length)` writes in the
order they were performed. -/
def coordLoop (ev : Env) (C : Nat) :
    List (Nat × Nat) → Nat → List Nat → ExcPath × List Nat × List (Nat × Nat)
  | [], _, file => (ExcPath.success, file, [])
  | c :: rest, i, file =>
    if ev.event i then (ExcPath.keyboardInterrupt, file, [])
    else
      match generate_chunk (ev.flag i) c.1 c.2 with
      | none => (ExcPath.runtimeError chunkFailMsg, file, [])
      | some buf =>
        let res := coordLoop ev C rest (i + 1) (writeChunk file (i * C * 9) buf)
        (res.1, res.2.1, (i * C * 9, buf.length) :: res.2.2)

/-- `cleanup_resources`: of the three best-effort blocks only the temp-file
one touches modelled state: `if temp_path.exists(): temp_path.unlink()`. -/
def cleanup (s : FsState) : FsState :=
  if s.tempExists then
    { s with tempExists := false, tempDeletes := s.tempDeletes + 1 }
  else s

/-- `generate_full_8digit_combinations(output_dir)` for a job of `N` entries
(`TOTAL_ENTRIES`) and chunk size `C` (`CHUNK_SIZE`), with `ENTRY_LENGTH = 9`
fixed by the source.  Returns the exit code the launcher derives
(`sys.exit(0 if success else 1)`; the preflight `IOError` path also reaches
`sys.exit(1)`, through the `__main__` handler, because the `finally` block
evaluates the never-assigned `temp_path` — the filesystem outcome is the
same), the internal control path, and the final filesystem state.
Order of effects, as in the source: disk-space preflight; temp file
preallocated to `N * 9` zero bytes by `truncate`; `mmap` (ValueError when
the file is empty, i.e. `N = 0`); the chunk list (`range(0, N, 0)` raises
ValueError when `C = 0`); the coordinator loop; on success
`temp_path.replace(output_path)`; always `cleanup_resources`. -/
def generate_full (ev : Env) (N C : Nat) (init : FsState) :
    Nat × ExcPath × FsState :=
  match check_disk_space ev.diskFree (N * 9) with
  | Except.error (req, avail) => (1, ExcPath.ioError req avail, init)
  | Except.ok _ =>
    let st1 : FsState :=
      { init with
        tempExists := true
        tempCreated := true
        tempContent := List.replicate (N * 9) 0 }
    if N = 0 then (1, ExcPath.valueError, cleanup st1)
    else if C = 0 then (1, ExcPath.valueError, cleanup st1)
    else
      let res := coordLoop ev C (chunkList N C) 0 st1.tempContent
      let st2 : FsState := { st1 with tempContent := res.2.1 }
      match res.1 with
      | ExcPath.success =>
        let st3 : FsState :=
          { st2 with
            tempExists := false
            outputExists := true
            outputContent := st2.tempContent
            tempRenames := st2.tempRenames + 1 }
        (0, ExcPath.success, cleanup st3)
      | p => (1, p, cleanup st2)

/-! ## Coordinator loop lemmas -/

theorem fullEnc_eq (s e : Nat) :
    fullEnc s e = (List.range' s (e - s)).flatMap (fun v => encodeRecord (v % UINT32)) := by
  rw [fullEnc, List.flatMap_map]

/-- A successful pass over the chunks with indices `k, k+1, …` writes the
encodings of `k*C, k*C + 1, …, N - 1` contiguously after byte `k*C*9`,
leaving the prefix of the mapped file untouched. -/
theorem coordLoop_success_content (ev : Env) {N C : Nat} (hC : 0 < C) :
    ∀ (m k : Nat) (file : List Nat),
      k + m = numChunks N C → file.length = N * 9 →
      (coordLoop ev C ((List.range' k m).map (chunkOf C N)) k file).1 = ExcPath.success →
      (coordLoop ev C ((List.range' k m).map (chunkOf C N)) k file).2.1 =
        file.take (k * C * 9) ++
          (List.range' (k * C) (N - k * C)).flatMap (fun v => encodeRecord (v % UINT32)) := by
  intro m
  induction m with
  | zero =>
    intro k file hk hlen hsucc
    have hkn : k = numChunks N C := by omega
    have hNle : N ≤ k * C := by
      rw [hkn]
      exact le_numChunks_mul hC
    have h0 : N - k * C = 0 := by omega
    simp only [List.range', List.map_nil, coordLoop, h0, List.flatMap_nil,
      List.append_nil]
    exact (List.take_of_length_le (by omega)).symm
  | succ m ih =>
    intro k file hk hlen hsucc
    rw [List.range'_succ k m 1, List.map_cons] at hsucc ⊢
    rw [coordLoop] at hsucc ⊢
    by_cases hev : ev.event k
    · simp [hev] at hsucc
    · simp only [hev, if_false, Bool.false_eq_true] at hsucc ⊢
      rcases hres : generate_chunk (ev.flag k) (chunkOf C N k).1 (chunkOf C N k).2 with _ | buf
      · rw [hres] at hsucc
        simp at hsucc
      · rw [hres] at hsucc
        dsimp only at hsucc ⊢
        -- chunk k is nonempty: k*C < N
        have hkN : k * C < N := start_lt_of_lt_numChunks hC (by omega)
        have hbuf : buf = fullEnc (k * C) (min (k * C + C) N) := by
          have := generate_chunk_some hres
          simpa [chunkOf] using this
        have hbuflen : buf.length = (min (k * C + C) N - k * C) * 9 := by
          rw [hbuf, fullEnc_length]
        have he1 : k * C ≤ min (k * C + C) N := le_min (by omega) (le_of_lt hkN)
        have he2 : min (k * C + C) N ≤ N := min_le_right _ _
        have hmin9 : k * C * 9 ≤ N * 9 := by
          have : k * C ≤ N := le_of_lt hkN
          omega
        -- length of the spliced file is unchanged
        have hsplice_len :
            (writeChunk file (k * C * 9) buf).length = N * 9 := by
          simp only [writeChunk, List.length_append, List.length_take,
            List.length_drop, hlen, hbuflen]
          rw [Nat.min_eq_left hmin9]
          generalize min (k * C + C) N = e at he1 he2 ⊢
          generalize k * C = s at he1 ⊢
          omega
        have hrec := ih (k + 1) (writeChunk file (k * C * 9) buf)
          (by omega) hsplice_len hsucc
        rw [hrec]
        -- analyse the splice prefix
        have htk : (file.take (k * C * 9)).length = k * C * 9 := by
          rw [List.length_take, hlen]
          exact Nat.min_eq_left hmin9
        by_cases hfit : k * C + C ≤ N
        · -- interior chunk: e = k*C + C
          have hminEq : min (k * C + C) N = k * C + C := min_eq_left hfit
          have hpre :
              (writeChunk file (k * C * 9) buf).take ((k + 1) * C * 9) =
                file.take (k * C * 9) ++ buf := by
            rw [writeChunk]
            refine List.take_left' ?_
            rw [List.length_append, htk, hbuflen, hminEq]
            ring_nf
            omega
          rw [hpre, hbuf, hminEq, fullEnc_eq, List.append_assoc,
            ← List.flatMap_append]
          congr 2
          have hcount : k * C + C - k * C = C := by omega
          rw [hcount]
          have h1 : k * C + C = (k + 1) * C := by ring
          have h2 : N - (k + 1) * C + C = N - k * C := by
            have h3 : (k + 1) * C = k * C + C := by ring
            omega
          have happ := List.range'_append_1 (k * C) C (N - (k + 1) * C)
          rw [h2] at happ
          rw [h1] at happ
          exact happ
        · -- final chunk: e = N and the remaining range is empty
          push_neg at hfit
          have hminEq : min (k * C + C) N = N := min_eq_right (le_of_lt hfit)
          have hdropnil : file.drop (k * C * 9 + buf.length) = [] := by
            refine List.drop_eq_nil_of_le ?_
            rw [hlen, hbuflen, hminEq]
            generalize k * C = s at hkN ⊢
            omega
          have hfile' : writeChunk file (k * C * 9) buf =
              file.take (k * C * 9) ++ buf := by
            rw [writeChunk, hdropnil, List.append_nil]
          have hlen' : (writeChunk file (k * C * 9) buf).length ≤ (k + 1) * C * 9 := by
            rw [hsplice_len]
            have h4 : (k + 1) * C = k * C + C := by ring
            have : N ≤ (k + 1) * C := by omega
            omega
          rw [List.take_of_length_le hlen', hfile']
          have hempty : N - (k + 1) * C = 0 := by
            have h4 : (k + 1) * C = k * C + C := by ring
            omega
          rw [hempty]
          simp only [List.range', List.flatMap_nil, List.append_nil]
          rw [hbuf, hminEq, fullEnc_eq]

/-- The ghost trace of writes performed by a pass starting at chunk index
`k`: at most one write per chunk, and the `j`-th write of the pass is the
full byte range of chunk `k + j`, at offset `(k+j)*C*9`.  No hypothesis on
the run's outcome: interrupted or failed passes simply produced a prefix. -/
theorem coordLoop_trace (ev : Env) {N C : Nat} :
    ∀ (m k : Nat) (file : List Nat),
      ((coordLoop ev C ((List.range' k m).map (chunkOf C N)) k file).2.2).length ≤ m ∧
      ∀ (j : Nat) (h : j < ((coordLoop ev C ((List.range' k m).map (chunkOf C N)) k file).2.2).length),
        ((coordLoop ev C ((List.range' k m).map (chunkOf C N)) k file).2.2).get ⟨j, h⟩ =
          ((k + j) * C * 9, (min ((k + j) * C + C) N - (k + j) * C) * 9) := by
  intro m
  induction m with
  | zero =>
    intro k file
    simp [List.range', coordLoop]
  | succ m ih =>
    intro k file
    rw [List.range'_succ k m 1, List.map_cons, coordLoop]
    by_cases hev : ev.event k
    · simp [hev]
    · rw [if_neg hev]
      rcases hres : generate_chunk (ev.flag k) (chunkOf C N k).1 (chunkOf C N k).2 with _ | buf
      · simp
      · dsimp only
        have hbuflen : buf.length = (min (k * C + C) N - k * C) * 9 := by
          have := generate_chunk_some hres
          rw [this]
          simpa [chunkOf] using fullEnc_length (k * C) (min (k * C + C) N)
        obtain ⟨ihlen, ihget⟩ := ih (k + 1) (writeChunk file (k * C * 9) buf)
        constructor
        · simpa using ihlen
        · intro j h
          match j with
          | 0 => simp [hbuflen]
          | j + 1 =>
            have hrec := ihget j (by simpa using h)
            simp only [List.get_eq_getElem, List.getElem_cons_succ] at hrec ⊢
            have harith : k + (j + 1) = k + 1 + j := by omega
            rw [harith]
            simpa using hrec

/-- Every pass of the coordinator loop ends in one of three control paths;
the chunk-failure path always carries the same fixed message. -/
theorem coordLoop_path (ev : Env) (C : Nat) :
    ∀ (cs : List (Nat × Nat)) (i : Nat) (file : List Nat),
      (coordLoop ev C cs i file).1 = ExcPath.success ∨
      (coordLoop ev C cs i file).1 = ExcPath.runtimeError chunkFailMsg ∨
      (coordLoop ev C cs i file).1 = ExcPath.keyboardInterrupt := by
  intro cs
  induction cs with
  | nil => intro i file; left; rfl
  | cons c rest ih =>
    intro i file
    rw [coordLoop]
    by_cases hev : ev.event i
    · simp [hev]
    · simp only [hev, if_false, Bool.false_eq_true]
      rcases hres : generate_chunk (ev.flag i) c.1 c.2 with _ | buf
      · right; left; rfl
      · exact ih (i + 1) (writeChunk file (i * C * 9) buf)

/-- `cleanup_resources` never touches the creation marker, the output file,
or the rename counter. -/
theorem cleanup_tempCreated (s : FsState) : (cleanup s).tempCreated = s.tempCreated := by
  unfold cleanup
  split <;> rfl

theorem cleanup_output (s : FsState) :
    (cleanup s).outputExists = s.outputExists ∧
    (cleanup s).outputContent = s.outputContent ∧
    (cleanup s).tempRenames = s.tempRenames := by
  unfold cleanup
  split <;> exact ⟨rfl, rfl, rfl⟩

/-- After cleanup the temp file never exists. -/
theorem cleanup_tempExists (s : FsState) : (cleanup s).tempExists = false := by
  unfold cleanup
  split
  · rfl
  · simp_all

/-- Once the disk-space preflight passes, the temp file is created — for
every `N`, with no further validation of any kind. -/
theorem generate_full_tempCreated (ev : Env) (N C : Nat) (init : FsState)
    (h : ¬ ev.diskFree < N * 9) :
    ((generate_full ev N C init).2.2).tempCreated = true := by
  unfold generate_full check_disk_space
  simp only [h, if_false]
  split
  · simp [cleanup_tempCreated]
  · split
    · simp [cleanup_tempCreated]
    · split <;> simp [cleanup_tempCreated]

/-! ## Concrete fixtures for witnesses and counterexamples -/

/-- A clean filesystem: no temp file, no output file, fresh ghost counters. -/
def initialFs : FsState :=
  { tempExists := false, tempContent := [], outputExists := false,
    outputContent := [], tempCreated := false, tempDeletes := 0, tempRenames := 0 }

/-- Plenty of disk, no interrupt, flag never set. -/
def benignEnv : Env :=
  { diskFree := 1000000000000, event := fun _ => false, flag := fun _ _ => false }

/-- No free disk space at all. -/
def noSpaceEnv : Env := { benignEnv with diskFree := 0 }

/-- The shutdown event is observed set at every coordinator iteration. -/
def interruptEnv : Env := { benignEnv with event := fun _ => true }

/-- Every worker observes the shared flag set at its first read: every chunk
result is `None` (the coordinator sees this at chunk index 0). -/
def faultEnv : Env := { benignEnv with flag := fun _ _ => true }

/-- Workers for chunk indices `≥ 1` observe the flag set: the first `None`
reaches the coordinator at chunk index 1. -/
def lateFaultEnv : Env := { benignEnv with flag := fun i _ => decide (1 ≤ i) }

/-- The ghost write trace of the coordinator loop of a full run (the loop is
started on the chunk list at index 0 over the freshly truncated file of
`N * 9` zero bytes). -/
def runWrites (ev : Env) (N C : Nat) : List (Nat × Nat) :=
  (coordLoop ev C (chunkList N C) 0 (List.replicate (N * 9) 0)).2.2

/-! ## Claim C2 — WorkPartitioner -/

/-- Claim C2: for every `N > 0` and `C > 0`, the chunk sequence is exactly
`Chunk[i] = [i*C, min((i+1)*C, N))` for `i = 0, …, ceil(N/C) - 1`, in
ascending order of `i`; no chunk is empty, every chunk has length at most
`C`, the chunks are pairwise disjoint (stated as: earlier chunks end no
later than later chunks start), and their union is exactly `[0, N)`. -/
theorem claim_C2 (N C : Nat) (hN : 0 < N) (hC : 0 < C) :
    (chunkList N C).length = (N + C - 1) / C ∧
    (∀ (i : Nat) (h : i < (chunkList N C).length),
      (chunkList N C).get ⟨i, h⟩ = (i * C, min ((i + 1) * C) N)) ∧
    (∀ (i : Nat) (h : i < (chunkList N C).length),
      ((chunkList N C).get ⟨i, h⟩).1 < ((chunkList N C).get ⟨i, h⟩).2 ∧
      ((chunkList N C).get ⟨i, h⟩).2 - ((chunkList N C).get ⟨i, h⟩).1 ≤ C) ∧
    (∀ (i j : Nat) (hi : i < (chunkList N C).length) (hj : j < (chunkList N C).length),
      i < j → ((chunkList N C).get ⟨i, hi⟩).2 ≤ ((chunkList N C).get ⟨j, hj⟩).1) ∧
    (∀ v : Nat, v < N ↔ ∃ c ∈ chunkList N C, c.1 ≤ v ∧ v < c.2) := by
  refine ⟨by simp [chunkList, numChunks], ?_, ?_, ?_, ?_⟩
  · intro i h
    rw [chunkList_get]
    have h1 : (i + 1) * C = i * C + C := by ring
    rw [h1]
  · intro i h
    rw [chunkList_get]
    have hi : i < numChunks N C := by
      rw [← chunkList_length N C]
      exact h
    have hiN : i * C < N := start_lt_of_lt_numChunks hC hi
    refine ⟨lt_min (by omega) hiN, ?_⟩
    have hmle : min (i * C + C) N ≤ i * C + C := min_le_left _ _
    generalize min (i * C + C) N = e at hmle ⊢
    generalize i * C = s at hmle ⊢
    omega
  · intro i j hi hj hij
    rw [chunkList_get, chunkList_get]
    have h2 : (i + 1) * C ≤ j * C := Nat.mul_le_mul_right C (by omega)
    have h1 : (i + 1) * C = i * C + C := by ring
    exact le_trans (min_le_left _ _) (by omega)
  · intro v
    constructor
    · intro hv
      refine ⟨chunkOf C N (v / C), ?_, ?_, ?_⟩
      · rw [chunkList]
        exact List.mem_map_of_mem _ (List.mem_range.mpr (div_lt_numChunks hC hv))
      · simpa [chunkOf] using Nat.div_mul_le_self v C
      · simp only [chunkOf]
        refine lt_min ?_ hv
        have hdm := Nat.div_add_mod v C
        have hm : v % C < C := Nat.mod_lt _ hC
        have hcomm : v / C * C = C * (v / C) := Nat.mul_comm _ _
        omega
    · rintro ⟨c, hc, hle, hlt⟩
      rw [chunkList] at hc
      obtain ⟨i, hi, rfl⟩ := List.mem_map.mp hc
      simp only [chunkOf] at hlt
      exact lt_of_lt_of_le hlt (min_le_right _ _)

/-- Witness for C2 at `N = 5`, `C = 2`. -/
theorem claim_C2_witness :
    (0 : Nat) < 5 ∧ (0 : Nat) < 2 ∧
    ((chunkList 5 2).length = (5 + 2 - 1) / 2 ∧
    (∀ (i : Nat) (h : i < (chunkList 5 2).length),
      (chunkList 5 2).get ⟨i, h⟩ = (i * 2, min ((i + 1) * 2) 5)) ∧
    (∀ (i : Nat) (h : i < (chunkList 5 2).length),
      ((chunkList 5 2).get ⟨i, h⟩).1 < ((chunkList 5 2).get ⟨i, h⟩).2 ∧
      ((chunkList 5 2).get ⟨i, h⟩).2 - ((chunkList 5 2).get ⟨i, h⟩).1 ≤ 2) ∧
    (∀ (i j : Nat) (hi : i < (chunkList 5 2).length) (hj : j < (chunkList 5 2).length),
      i < j → ((chunkList 5 2).get ⟨i, hi⟩).2 ≤ ((chunkList 5 2).get ⟨j, hj⟩).1) ∧
    (∀ v : Nat, v < 5 ↔ ∃ c ∈ chunkList 5 2, c.1 ≤ v ∧ v < c.2)) :=
  ⟨by decide, by decide, claim_C2 5 2 (by decide) (by decide)⟩

/-! ## Claim C3 — ChunkGenerator encoding -/

/-- Claim C3: for every chunk `[start, end)` with `start < end` and every
value representable in 8 digits (`end ≤ 10^8`), a non-cancelled fault-free
call returns a buffer (the never-set flag yields `some`), and any returned
buffer has length exactly `(end - start) * 9` with the `j`-th 9-byte record
equal to the decimal string of `start + j` zero-padded to 8 characters
followed by the newline byte. -/
theorem claim_C3 (s e : Nat) (hse : s < e) (he : e ≤ 100000000) :
    generate_chunk (fun _ => false) s e = some (fullEnc s e) ∧
    ∀ (flag : Nat → Bool) (b : List Nat), generate_chunk flag s e = some b →
      b.length = (e - s) * 9 ∧
      ∀ j, j < e - s →
        (b.drop (j * 9)).take 9 = zfill 8 (strOfNat (s + j)) ++ [10] := by
  refine ⟨generate_chunk_constFalse s e hse, ?_⟩
  intro flag b hb
  have hbuf := generate_chunk_some hb
  subst hbuf
  refine ⟨fullEnc_length s e, ?_⟩
  intro j hj
  rw [fullEnc_record s e j hj]
  have hmod : (s + j) % UINT32 = s + j := by
    apply Nat.mod_eq_of_lt
    have : s + j < e := by omega
    have h8 : (100000000 : Nat) < UINT32 := by decide
    omega
  rw [hmod]
  exact encodeRecord_of_lt (by omega)

/-- Witness for C3: the record of `v = 42` at width 9 is `"00000042\n"`
(bytes `48,48,48,48,48,48,52,50,10`). -/
theorem claim_C3_witness :
    (42 : Nat) < 43 ∧ (43 : Nat) ≤ 100000000 ∧
    generate_chunk (fun _ => false) 42 43 = some [48, 48, 48, 48, 48, 48, 52, 50, 10] ∧
    (generate_chunk (fun _ => false) 42 43 = some (fullEnc 42 43) ∧
    ∀ (flag : Nat → Bool) (b : List Nat), generate_chunk flag 42 43 = some b →
      b.length = (43 - 42) * 9 ∧
      ∀ j, j < 43 - 42 →
        (b.drop (j * 9)).take 9 = zfill 8 (strOfNat (42 + j)) ++ [10]) :=
  ⟨by decide, by decide, by decide, claim_C3 42 43 (by decide) (by decide)⟩

/-! ## Claim C9 — bounded cancellation latency -/

/-- Claim C9: the worker reads the shared flag once before starting and once
per inner batch of at most 100,000 records.  If the flag first reads true at
read index `K` and that read is reached (`hobs`: the batches before it do
not exhaust the chunk), the call returns the cancellation marker `None`
after completing exactly `K - 1` batches — i.e. at most one further batch
after the batch during which the flag flipped — instead of a byte buffer. -/
theorem claim_C9 (flag : Nat → Bool) (s e K : Nat) (hse : s < e)
    (hK : flag K = true) (hlow : ∀ j, j < K → flag j = false)
    (hobs : (K - 1) * min 100000 (e - s) < e - s) :
    generate_chunk flag s e = none ∧
    generate_chunk_batches flag s e = K - 1 ∧
    min 100000 (e - s) ≤ 100000 := by
  have h := generate_chunk_cancelled hse hK hlow hobs
  refine ⟨?_, ?_, min_le_left _ _⟩
  · rw [generate_chunk, h]
  · rw [generate_chunk_batches, h]

/-- Witness for C9: chunk `[0, 5)`, flag set from the first in-loop read
(`K = 1`): the worker returns `None` having completed zero batches. -/
theorem claim_C9_witness :
    (0 : Nat) < 5 ∧ (fun k => decide (1 ≤ k)) 1 = true ∧
    (generate_chunk (fun k => decide (1 ≤ k)) 0 5 = none ∧
     generate_chunk_batches (fun k => decide (1 ≤ k)) 0 5 = 1 - 1 ∧
     min 100000 (5 - 0) ≤ 100000) :=
  ⟨by decide, by decide,
    claim_C9 (fun k => decide (1 ≤ k)) 0 5 1 (by decide) (by decide)
      (fun j hj => by
        match j, hj with
        | 0, _ => rfl)
      (by decide)⟩

/-! ## Claim C1 — end-to-end functional correctness -/

/-- A run that returns exit code 0 passed the preflight, had `N, C ≠ 0`,
its coordinator loop ended in the success path, and the published output is
exactly the loop's final mapped content. -/
theorem generate_full_exit0 (ev : Env) (N C : Nat) (init : FsState)
    (hrun : (generate_full ev N C init).1 = 0) :
    ¬ ev.diskFree < N * 9 ∧ N ≠ 0 ∧ C ≠ 0 ∧
    (coordLoop ev C (chunkList N C) 0 (List.replicate (N * 9) 0)).1 = ExcPath.success ∧
    (generate_full ev N C init).2.2.outputExists = true ∧
    (generate_full ev N C init).2.2.outputContent =
      (coordLoop ev C (chunkList N C) 0 (List.replicate (N * 9) 0)).2.1 := by
  unfold generate_full check_disk_space at hrun ⊢
  by_cases h0 : ev.diskFree < N * 9
  · simp [h0] at hrun
  · simp only [h0, if_false] at hrun ⊢
    by_cases hN0 : N = 0
    · simp [hN0] at hrun
    · simp only [hN0, if_false] at hrun ⊢
      by_cases hC0 : C = 0
      · simp [hC0] at hrun
      · simp only [hC0, if_false] at hrun ⊢
        rcases hp : (coordLoop ev C (chunkList N C) 0
            (List.replicate (N * 9) 0)).1 with _ | ⟨r, a⟩ | _ | ⟨m⟩ | _
        · dsimp only at hrun ⊢
          refine ⟨not_false, hN0, hC0, rfl, ?_, ?_⟩
          · rw [(cleanup_output _).1]
          · rw [(cleanup_output _).2.1]
        · rw [hp] at hrun
          simp at hrun
        · rw [hp] at hrun
          simp at hrun
        · rw [hp] at hrun
          simp at hrun
        · rw [hp] at hrun
          simp at hrun

/-- Claim C1: for every valid configuration (`N, C > 0`, every value in
`[0, N)` representable in 8 digits, i.e. `N ≤ 10^8`; `W = 9` is fixed by
the source), a run that completes successfully publishes at the output path
a file of exactly `N * 9` bytes whose content is the concatenation, for
`v = 0, …, N-1` in ascending order, of the zero-padded 8-digit decimal
encoding of `v` followed by one newline byte; decoding the `j`-th record
yields `j`, so the records enumerate `0..N-1` with no duplicates or gaps. -/
theorem claim_C1 (ev : Env) (N C : Nat) (init : FsState)
    (hN : 0 < N) (hC : 0 < C) (hW : N ≤ 100000000)
    (hrun : (generate_full ev N C init).1 = 0) :
    (generate_full ev N C init).2.2.outputExists = true ∧
    (generate_full ev N C init).2.2.outputContent.length = N * 9 ∧
    (generate_full ev N C init).2.2.outputContent = (List.range N).flatMap encodeRecord ∧
    ∀ j, j < N →
      (((generate_full ev N C init).2.2.outputContent.drop (j * 9)).take 9 =
          zfill 8 (strOfNat j) ++ [10]) ∧
      decodeDigits (((generate_full ev N C init).2.2.outputContent.drop (j * 9)).take 8) = j := by
  obtain ⟨h0, hN0, hC0, hp, hex, hcontent⟩ := generate_full_exit0 ev N C init hrun
  have hcl : chunkList N C = (List.range' 0 (numChunks N C)).map (chunkOf C N) := by
    rw [chunkList, List.range_eq_range']
  rw [hcl] at hp hcontent
  have hcc := coordLoop_success_content ev (N := N) (C := C) hC (numChunks N C) 0
    (List.replicate (N * 9) 0) (by omega) (by simp) hp
  rw [hcc] at hcontent
  simp only [Nat.zero_mul, List.take_zero, List.nil_append, Nat.sub_zero] at hcontent
  rw [← List.range_eq_range'] at hcontent
  have hmodid : ∀ v ∈ List.range N, encodeRecord (v % UINT32) = encodeRecord v := by
    intro v hv
    have hvN : v < N := List.mem_range.mp hv
    have h32 : (100000000 : Nat) < UINT32 := by decide
    rw [Nat.mod_eq_of_lt (by omega)]
  rw [List.flatMap_congr hmodid] at hcontent
  refine ⟨hex, ?_, hcontent, ?_⟩
  · rw [hcontent, flatMap_length_const _ _ (fun a _ => encodeRecord_length a)]
    simp
    ring
  · intro j hj
    have hslice := flatMap_slice (List.range N) encodeRecord
      (fun a _ => encodeRecord_length a) j (by simpa using hj)
    have hgetj : (List.range N).get ⟨j, by simpa using hj⟩ = j := by
      simp
    rw [hgetj] at hslice
    rw [hcontent]
    constructor
    · rw [hslice]
      exact encodeRecord_of_lt (by omega)
    · have h89 : (((List.range N).flatMap encodeRecord).drop (j * 9)).take 8 =
          ((((List.range N).flatMap encodeRecord).drop (j * 9)).take 9).take 8 := by
        rw [List.take_take]
        norm_num
      rw [h89, hslice]
      exact decode_encodeRecord (by omega)

/-- Witness for C1: `N = 2`, `C = 1`, benign environment: the run succeeds
and the output is `"00000000\n00000001\n"`. -/
theorem claim_C1_witness :
    (0 : Nat) < 2 ∧ (generate_full benignEnv 2 1 initialFs).1 = 0 ∧
    ((generate_full benignEnv 2 1 initialFs).2.2.outputExists = true ∧
    (generate_full benignEnv 2 1 initialFs).2.2.outputContent.length = 2 * 9 ∧
    (generate_full benignEnv 2 1 initialFs).2.2.outputContent =
      (List.range 2).flatMap encodeRecord ∧
    ∀ j, j < 2 →
      (((generate_full benignEnv 2 1 initialFs).2.2.outputContent.drop (j * 9)).take 9 =
          zfill 8 (strOfNat j) ++ [10]) ∧
      decodeDigits (((generate_full benignEnv 2 1 initialFs).2.2.outputContent.drop
          (j * 9)).take 8) = j) :=
  ⟨by decide, by decide,
    claim_C1 benignEnv 2 1 initialFs (by decide) (by decide) (by decide) (by decide)⟩

/-! ## Claim C4 — ordered, chunk-identity writes -/

/-- Claim C4: chunk results are applied in ascending chunk-index order (the
`i`-th entry of the run's write trace belongs to the `i`-th submitted chunk
— `pool.imap` delivers results in submission order, and only the
coordinator, which owns the mapping, performs writes), the `i`-th write
starts at byte offset `i * C * 9`, which equals the chunk-identity offset
`chunks[i].start * 9`, and its extent is exactly chunk `i`'s byte range, so
distinct chunks' ranges are written at most once and never overlap (an
earlier write ends at or before a later write's offset). -/
theorem claim_C4 (ev : Env) (N C : Nat) (hC : 0 < C) :
    (runWrites ev N C).length ≤ (chunkList N C).length ∧
    (∀ (i : Nat) (h : i < (runWrites ev N C).length) (h2 : i < (chunkList N C).length),
      (runWrites ev N C).get ⟨i, h⟩ =
        (i * C * 9,
          (((chunkList N C).get ⟨i, h2⟩).2 - ((chunkList N C).get ⟨i, h2⟩).1) * 9) ∧
      ((runWrites ev N C).get ⟨i, h⟩).1 = ((chunkList N C).get ⟨i, h2⟩).1 * 9) ∧
    (∀ (i l : Nat) (hi : i < (runWrites ev N C).length)
        (hl : l < (runWrites ev N C).length), i < l →
      ((runWrites ev N C).get ⟨i, hi⟩).1 + ((runWrites ev N C).get ⟨i, hi⟩).2 ≤
        ((runWrites ev N C).get ⟨l, hl⟩).1) := by
  have hcl : chunkList N C = (List.range' 0 (numChunks N C)).map (chunkOf C N) := by
    rw [chunkList, List.range_eq_range']
  have hws : runWrites ev N C =
      (coordLoop ev C ((List.range' 0 (numChunks N C)).map (chunkOf C N)) 0
        (List.replicate (N * 9) 0)).2.2 := by
    rw [runWrites, hcl]
  obtain ⟨htlen, htget⟩ := coordLoop_trace ev (N := N) (C := C) (numChunks N C) 0
    (List.replicate (N * 9) 0)
  have hget : ∀ (i : Nat) (h : i < (runWrites ev N C).length),
      (runWrites ev N C).get ⟨i, h⟩ =
        (i * C * 9, (min (i * C + C) N - i * C) * 9) := by
    intro i h
    have h' : i < ((coordLoop ev C ((List.range' 0 (numChunks N C)).map (chunkOf C N)) 0
        (List.replicate (N * 9) 0)).2.2).length := by
      rw [← hws]
      exact h
    have hg := htget i h'
    simp only [Nat.zero_add] at hg
    rw [List.get_eq_getElem] at hg ⊢
    simp only [hws]
    simpa using hg
  refine ⟨?_, ?_, ?_⟩
  · rw [hws, chunkList_length]
    exact htlen
  · intro i h h2
    rw [hget i h, chunkList_get]
    exact ⟨rfl, rfl⟩
  · intro i l hi hl hil
    rw [hget i hi, hget l hl]
    have h1 : min (i * C + C) N ≤ i * C + C := min_le_left _ _
    have h2 : (i + 1) * C ≤ l * C := Nat.mul_le_mul_right C (by omega)
    have h3 : (i + 1) * C = i * C + C := by ring
    have h4 : (i + 1) * C * 9 ≤ l * C * 9 := Nat.mul_le_mul_right 9 h2
    rw [h3] at h4
    generalize min (i * C + C) N = e at h1 ⊢
    generalize i * C = s at h1 h4 ⊢
    generalize l * C = t at h4 ⊢
    omega

/-- Witness for C4 at `N = 2`, `C = 1` in the benign environment: two writes,
`(0, 9)` and `(9, 9)`. -/
theorem claim_C4_witness :
    (0 : Nat) < 1 ∧ runWrites benignEnv 2 1 = [(0, 9), (9, 9)] ∧
    ((runWrites benignEnv 2 1).length ≤ (chunkList 2 1).length ∧
    (∀ (i : Nat) (h : i < (runWrites benignEnv 2 1).length)
        (h2 : i < (chunkList 2 1).length),
      (runWrites benignEnv 2 1).get ⟨i, h⟩ =
        (i * 1 * 9,
          (((chunkList 2 1).get ⟨i, h2⟩).2 - ((chunkList 2 1).get ⟨i, h2⟩).1) * 9) ∧
      ((runWrites benignEnv 2 1).get ⟨i, h⟩).1 = ((chunkList 2 1).get ⟨i, h2⟩).1 * 9) ∧
    (∀ (i l : Nat) (hi : i < (runWrites benignEnv 2 1).length)
        (hl : l < (runWrites benignEnv 2 1).length), i < l →
      ((runWrites benignEnv 2 1).get ⟨i, hi⟩).1 + ((runWrites benignEnv 2 1).get ⟨i, hi⟩).2 ≤
        ((runWrites benignEnv 2 1).get ⟨l, hl⟩).1)) :=
  ⟨by decide, by decide, claim_C4 benignEnv 2 1 (by decide)⟩

/-! ## Claim C10 — every write stays inside the preallocated file -/

/-- Claim C10: for every job with `C > 0` and every entry of the run's write
trace, the written byte range `[offset, offset + length)` lies entirely
within the preallocated `N * 9` bytes — including the final, possibly
shorter chunk — so no mmap slice assignment is out of bounds. -/
theorem claim_C10 (ev : Env) (N C : Nat) (hC : 0 < C) :
    ∀ (i : Nat) (h : i < (runWrites ev N C).length),
      ((runWrites ev N C).get ⟨i, h⟩).1 + ((runWrites ev N C).get ⟨i, h⟩).2 ≤ N * 9 := by
  have hcl : chunkList N C = (List.range' 0 (numChunks N C)).map (chunkOf C N) := by
    rw [chunkList, List.range_eq_range']
  have hws : runWrites ev N C =
      (coordLoop ev C ((List.range' 0 (numChunks N C)).map (chunkOf C N)) 0
        (List.replicate (N * 9) 0)).2.2 := by
    rw [runWrites, hcl]
  obtain ⟨htlen, htget⟩ := coordLoop_trace ev (N := N) (C := C) (numChunks N C) 0
    (List.replicate (N * 9) 0)
  intro i h
  have h' : i < ((coordLoop ev C ((List.range' 0 (numChunks N C)).map (chunkOf C N)) 0
      (List.replicate (N * 9) 0)).2.2).length := by
    rw [← hws]
    exact h
  have hgi := htget i h'
  simp only [Nat.zero_add] at hgi
  have hgw : (runWrites ev N C).get ⟨i, h⟩ =
      (i * C * 9, (min (i * C + C) N - i * C) * 9) := by
    rw [List.get_eq_getElem] at hgi ⊢
    simp only [hws]
    simpa using hgi
  rw [hgw]
  have hiN : i * C < N := start_lt_of_lt_numChunks hC (lt_of_lt_of_le h' htlen)
  have h1 : min (i * C + C) N ≤ N := min_le_right _ _
  have h2 : i * C ≤ min (i * C + C) N := le_min (by omega) (le_of_lt hiN)
  generalize min (i * C + C) N = e at h1 h2 ⊢
  generalize i * C = s at h1 h2 ⊢
  omega

/-- Witness for C10 at `N = 2`, `C = 1` in the benign environment. -/
theorem claim_C10_witness :
    (0 : Nat) < 1 ∧
    ∀ (i : Nat) (h : i < (runWrites benignEnv 2 1).length),
      ((runWrites benignEnv 2 1).get ⟨i, h⟩).1 +
        ((runWrites benignEnv 2 1).get ⟨i, h⟩).2 ≤ 2 * 9 :=
  ⟨by decide, claim_C10 benignEnv 2 1 (by decide)⟩

/-! ## Claim C5 — disk-space preflight -/

/-- Claim C5: whenever the reported free space is below the required
`N * 9` bytes, `check_disk_space` fails with the error carrying the
required and available amounts, the run surfaces exactly that error, and no
temporary file was ever created (`tempCreated` stays false), so none exists
after the run: the preflight error precedes any temp-file creation. -/
theorem claim_C5 (ev : Env) (N C : Nat) (init : FsState)
    (hsp : ev.diskFree < N * 9) (hi : init.tempExists = false)
    (hc : init.tempCreated = false) :
    check_disk_space ev.diskFree (N * 9) = Except.error (N * 9, ev.diskFree) ∧
    (generate_full ev N C init).2.1 = ExcPath.ioError (N * 9) ev.diskFree ∧
    (generate_full ev N C init).2.2.tempCreated = false ∧
    (generate_full ev N C init).2.2.tempExists = false := by
  have hchk : check_disk_space ev.diskFree (N * 9) = Except.error (N * 9, ev.diskFree) := by
    rw [check_disk_space, if_pos hsp]
  refine ⟨hchk, ?_, ?_, ?_⟩
  · unfold generate_full
    rw [hchk]
  · unfold generate_full
    rw [hchk]
    exact hc
  · unfold generate_full
    rw [hchk]
    exact hi

/-- Witness for C5: `N = 1`, `C = 1`, zero free bytes. -/
theorem claim_C5_witness :
    noSpaceEnv.diskFree < 1 * 9 ∧
    (check_disk_space noSpaceEnv.diskFree (1 * 9) = Except.error (1 * 9, noSpaceEnv.diskFree) ∧
     (generate_full noSpaceEnv 1 1 initialFs).2.1 = ExcPath.ioError (1 * 9) noSpaceEnv.diskFree ∧
     (generate_full noSpaceEnv 1 1 initialFs).2.2.tempCreated = false ∧
     (generate_full noSpaceEnv 1 1 initialFs).2.2.tempExists = false) :=
  ⟨by decide, claim_C5 noSpaceEnv 1 1 initialFs (by decide) (by decide) (by decide)⟩

/-! ## Claim C7 — cleanup discipline -/

/-- Claim C7: every run that ends in failure or cancellation (exit code 1)
leaves no temporary file and the target output path untouched (existence
and content unchanged); over the whole job the temporary file, when it was
created, is deleted or renamed exactly once and never both, and a
successful run renames exactly once and never deletes. -/
theorem claim_C7 (ev : Env) (N C : Nat) (init : FsState)
    (h1 : init.tempExists = false) (h2 : init.tempCreated = false)
    (h3 : init.tempDeletes = 0) (h4 : init.tempRenames = 0) :
    ((generate_full ev N C init).1 = 1 →
      (generate_full ev N C init).2.2.tempExists = false ∧
      (generate_full ev N C init).2.2.outputExists = init.outputExists ∧
      (generate_full ev N C init).2.2.outputContent = init.outputContent) ∧
    (generate_full ev N C init).2.2.tempDeletes +
      (generate_full ev N C init).2.2.tempRenames ≤ 1 ∧
    ((generate_full ev N C init).2.2.tempCreated = true →
      (generate_full ev N C init).2.2.tempDeletes +
        (generate_full ev N C init).2.2.tempRenames = 1 ∧
      ¬((generate_full ev N C init).2.2.tempDeletes = 1 ∧
        (generate_full ev N C init).2.2.tempRenames = 1)) ∧
    ((generate_full ev N C init).1 = 0 →
      (generate_full ev N C init).2.2.tempRenames = 1 ∧
      (generate_full ev N C init).2.2.tempDeletes = 0) := by
  unfold generate_full check_disk_space
  by_cases h0 : ev.diskFree < N * 9
  · rw [if_pos h0]
    dsimp only
    refine ⟨fun _ => ⟨h1, rfl, rfl⟩, by omega, fun hcr => ?_,
      fun h10 => absurd h10 (by decide)⟩
    rw [h2] at hcr
    exact absurd hcr (by decide)
  · rw [if_neg h0]
    by_cases hN0 : N = 0
    · rw [if_pos hN0]
      refine ⟨fun _ => ⟨cleanup_tempExists _, ?_, ?_⟩, ?_, fun _ => ⟨?_, ?_⟩, ?_⟩ <;>
        simp [cleanup, h3, h4]
    · rw [if_neg hN0]
      by_cases hC0 : C = 0
      · rw [if_pos hC0]
        refine ⟨fun _ => ⟨cleanup_tempExists _, ?_, ?_⟩, ?_, fun _ => ⟨?_, ?_⟩, ?_⟩ <;>
          simp [cleanup, h3, h4]
      · rw [if_neg hC0]
        dsimp only
        rcases coordLoop_path ev C (chunkList N C) 0 (List.replicate (N * 9) 0)
          with hs | hr | hk
        · rw [hs]
          dsimp only
          refine ⟨fun hx => absurd hx (by decide), ?_, fun _ => ⟨?_, ?_⟩,
            fun _ => ⟨?_, ?_⟩⟩ <;>
            simp [cleanup, h3, h4]
        · rw [hr]
          dsimp only
          refine ⟨fun _ => ⟨cleanup_tempExists _, ?_, ?_⟩, ?_, fun _ => ⟨?_, ?_⟩,
            fun hx => absurd hx (by decide)⟩ <;>
            simp [cleanup, h3, h4]
        · rw [hk]
          dsimp only
          refine ⟨fun _ => ⟨cleanup_tempExists _, ?_, ?_⟩, ?_, fun _ => ⟨?_, ?_⟩,
            fun hx => absurd hx (by decide)⟩ <;>
            simp [cleanup, h3, h4]

/-- Witness for C7: the benign successful run at `N = 2`, `C = 1`. -/
theorem claim_C7_witness :
    initialFs.tempExists = false ∧ (generate_full benignEnv 2 1 initialFs).1 = 0 ∧
    (((generate_full benignEnv 2 1 initialFs).1 = 1 →
      (generate_full benignEnv 2 1 initialFs).2.2.tempExists = false ∧
      (generate_full benignEnv 2 1 initialFs).2.2.outputExists = initialFs.outputExists ∧
      (generate_full benignEnv 2 1 initialFs).2.2.outputContent = initialFs.outputContent) ∧
    (generate_full benignEnv 2 1 initialFs).2.2.tempDeletes +
      (generate_full benignEnv 2 1 initialFs).2.2.tempRenames ≤ 1 ∧
    ((generate_full benignEnv 2 1 initialFs).2.2.tempCreated = true →
      (generate_full benignEnv 2 1 initialFs).2.2.tempDeletes +
        (generate_full benignEnv 2 1 initialFs).2.2.tempRenames = 1 ∧
      ¬((generate_full benignEnv 2 1 initialFs).2.2.tempDeletes = 1 ∧
        (generate_full benignEnv 2 1 initialFs).2.2.tempRenames = 1)) ∧
    ((generate_full benignEnv 2 1 initialFs).1 = 0 →
      (generate_full benignEnv 2 1 initialFs).2.2.tempRenames = 1 ∧
      (generate_full benignEnv 2 1 initialFs).2.2.tempDeletes = 0)) :=
  ⟨by decide, by decide,
    claim_C7 benignEnv 2 1 initialFs (by decide) (by decide) (by decide) (by decide)⟩

/-! ## Claim C6 — no digit-width validation (corrected) -/

/-- Counterexample to C6: at `N = 100000001` (which needs 9 digits for its
largest value) with ample disk space, the run does not fail fast before
allocating — it creates the temporary file (`tempCreated = true`); there is
no `InvalidConfiguration` check anywhere.  Instead the encoding silently
truncates: the chunk `[10^8, 10^8 + 1)` yields the bytes of
`"10000000\n"` — the first 8 characters of `str(10^8)` — which collides
with the record of `10^7`. -/
theorem claim_C6_counterexample :
    ((generate_full benignEnv 100000001 100000001 initialFs).2.2).tempCreated = true ∧
    generate_chunk (fun _ => false) 100000000 100000001 =
      some [49, 48, 48, 48, 48, 48, 48, 48, 10] ∧
    encodeRecord 100000000 = encodeRecord 10000000 :=
  ⟨generate_full_tempCreated benignEnv 100000001 100000001 initialFs (by decide),
    by decide, by decide⟩

/-- Claim C6 (amended): the code performs no digit-width validation at all:
whenever the disk-space preflight passes, the temporary file is created
regardless of whether `N` fits the 8-digit width, and any value whose
decimal string exceeds 8 digits is silently truncated to its first 8
characters by the `'U8'` dtype — records are misencoded (and collide), not
rejected. -/
theorem claim_C6_amended (ev : Env) (N C : Nat) (init : FsState)
    (h : ¬ ev.diskFree < N * 9) :
    ((generate_full ev N C init).2.2).tempCreated = true ∧
    ∀ v, 8 < (strOfNat v).length → encodeRecord v = (strOfNat v).take 8 ++ [10] :=
  ⟨generate_full_tempCreated ev N C init h, fun v hv => encodeRecord_truncates hv⟩

/-- Witness for the amended C6 at `N = C = 100000001`. -/
theorem claim_C6_amended_witness :
    (¬ benignEnv.diskFree < 100000001 * 9) ∧
    (((generate_full benignEnv 100000001 100000001 initialFs).2.2).tempCreated = true ∧
     ∀ v, 8 < (strOfNat v).length → encodeRecord v = (strOfNat v).take 8 ++ [10]) :=
  ⟨by decide, claim_C6_amended benignEnv 100000001 100000001 initialFs (by decide)⟩

/-! ## Claim C8 — outcome reporting (corrected) -/

/-- Counterexample to C8: the launcher-visible value collapses the
failure outcomes.  An interrupted run, a run with a chunk-generation fault
and a run with insufficient disk space all exit with code 1 even though
their internal paths differ, and a fault at chunk 0 is reported with the
same exception value as a fault at chunk 1 — the fixed message
`"Chunk generation failed"` carries no chunk index or cause. -/
theorem claim_C8_counterexample :
    (generate_full interruptEnv 2 1 initialFs).2.1 = ExcPath.keyboardInterrupt ∧
    (generate_full faultEnv 2 1 initialFs).2.1 = ExcPath.runtimeError chunkFailMsg ∧
    (generate_full noSpaceEnv 2 1 initialFs).2.1 = ExcPath.ioError 18 0 ∧
    (generate_full interruptEnv 2 1 initialFs).1 = 1 ∧
    (generate_full faultEnv 2 1 initialFs).1 = 1 ∧
    (generate_full noSpaceEnv 2 1 initialFs).1 = 1 ∧
    (generate_full faultEnv 2 1 initialFs).2.1 =
      (generate_full lateFaultEnv 2 1 initialFs).2.1 := by
  decide

/-- Claim C8 (amended): for `N, C > 0` every run terminates in exactly one
of four internal control paths — success, the `IOError` carrying required
and available space, the `RuntimeError` with the fixed message
`"Chunk generation failed"` (no chunk index, no cause), or
`KeyboardInterrupt` — but the core exposes to the launcher only a boolean:
exit code 0 exactly on success, and 1 for all three failure kinds, which
are distinguishable only in the logs. -/
theorem claim_C8_amended (ev : Env) (N C : Nat) (init : FsState)
    (hN : 0 < N) (hC : 0 < C) :
    ((generate_full ev N C init).2.1 = ExcPath.success ∨
     (∃ r a, (generate_full ev N C init).2.1 = ExcPath.ioError r a) ∨
     (generate_full ev N C init).2.1 = ExcPath.runtimeError chunkFailMsg ∨
     (generate_full ev N C init).2.1 = ExcPath.keyboardInterrupt) ∧
    ((generate_full ev N C init).1 = 0 ↔
      (generate_full ev N C init).2.1 = ExcPath.success) ∧
    ((generate_full ev N C init).2.1 ≠ ExcPath.success →
      (generate_full ev N C init).1 = 1) := by
  unfold generate_full check_disk_space
  by_cases h0 : ev.diskFree < N * 9
  · rw [if_pos h0]
    exact ⟨Or.inr (Or.inl ⟨N * 9, ev.diskFree, rfl⟩), by simp, fun _ => rfl⟩
  · rw [if_neg h0]
    have hN0 : ¬ N = 0 := by omega
    have hC0 : ¬ C = 0 := by omega
    rw [if_neg hN0, if_neg hC0]
    dsimp only
    rcases coordLoop_path ev C (chunkList N C) 0 (List.replicate (N * 9) 0)
      with hs | hr | hk
    · rw [hs]
      exact ⟨Or.inl rfl, by simp, fun hcon => absurd rfl hcon⟩
    · rw [hr]
      exact ⟨Or.inr (Or.inr (Or.inl rfl)), by simp, fun _ => rfl⟩
    · rw [hk]
      exact ⟨Or.inr (Or.inr (Or.inr rfl)), by simp, fun _ => rfl⟩

/-- Witness for the amended C8: the benign run at `N = 2`, `C = 1`. -/
theorem claim_C8_amended_witness :
    (0 : Nat) < 2 ∧
    (((generate_full benignEnv 2 1 initialFs).2.1 = ExcPath.success ∨
     (∃ r a, (generate_full benignEnv 2 1 initialFs).2.1 = ExcPath.ioError r a) ∨
     (generate_full benignEnv 2 1 initialFs).2.1 = ExcPath.runtimeError chunkFailMsg ∨
     (generate_full benignEnv 2 1 initialFs).2.1 = ExcPath.keyboardInterrupt) ∧
    ((generate_full benignEnv 2 1 initialFs).1 = 0 ↔
      (generate_full benignEnv 2 1 initialFs).2.1 = ExcPath.success) ∧
    ((generate_full benignEnv 2 1 initialFs).2.1 ≠ ExcPath.success →
      (generate_full benignEnv 2 1 initialFs).1 = 1)) :=
  ⟨by decide, claim_C8_amended benignEnv 2 1 initialFs (by decide) (by decide)⟩

end Crunch
